import Mathlib

/-!
Verification of the disentanglement-metric evaluation pipeline of the
disentangling-vae repository (`disvae/evaluate.py`).

The development shallowly embeds the numeric core of `Evaluator`:

* the mixed-radix factor indexing used by `_images_from_data_gen`
  (`latents_bases`, `np.dot`),
* the MIG and AAM score aggregators (`_mutual_information_gap`,
  `_axis_aligned_metric`), with IEEE-style not-a-number propagation
  modelled explicitly,
* the minibatched marginal-entropy estimator
  (`_estimate_latent_entropies`) and the conditional-entropy loop
  (`_estimate_H_zCv`),
* the paired-sample generator (`_images_from_data_gen` /
  `_compute_z_b_diff_y`) with the NumPy random stream modelled as an
  explicit sequence of draws consumed in program order,
* the control-flow skeletons of `compute_metrics`, the baseline trainer
  loop of `_disentanglement_metric`, and `Evaluator.__call__`.

Real-valued tensor entries are modelled as rationals where the code only
performs field arithmetic, and as reals where logarithms and exponentials
appear.  Fallible tensor operations (shape-checked `view`, unbound Python
names) return `Except`.
-/

namespace DisVAE

/-! ### Mixed-radix factor indexing (`_images_from_data_gen`, lines 352-356) -/

/-- Running products of a list, as computed by `np.cumprod`. -/
def cumprod : List ℕ → List ℕ
  | [] => []
  | x :: xs => x :: (cumprod xs).map (x * ·)

/-- `latents_bases = np.concatenate((lat_sizes[::-1].cumprod()[::-1][1:], np.array([1,])))`:
reverse the cardinalities, take cumulative products, reverse again, drop the
leading full product and append a trailing 1. -/
def latents_bases (lat_sizes : List ℕ) : List ℕ :=
  ((cumprod lat_sizes.reverse).reverse.drop 1) ++ [1]

/-- `np.dot` of a factor-value row with the basis vector. -/
def dotL (vs bs : List ℕ) : ℕ :=
  (List.zipWith (· * ·) vs bs).sum

/-- `latent_indices = np.dot(samples, latents_bases)`: mixed-radix encoding of
one factor-value tuple into a dense linear index. -/
def encodeIdx (sizes vs : List ℕ) : ℕ := dotL vs (latents_bases sizes)

/-- Conceptual decoder from the spec: recover the tuple by per-factor division
and modulo, the divisor for each factor being the product of the later
cardinalities (the same basis the encoder uses). -/
def decodeIdx : List ℕ → ℕ → List ℕ
  | [], _ => []
  | _ :: ss, n => n / ss.prod :: decodeIdx ss (n % ss.prod)

theorem cumprod_append (a b : List ℕ) :
    cumprod (a ++ b) = cumprod a ++ (cumprod b).map (a.prod * ·) := by
  induction a with
  | nil => simp [cumprod]
  | cons x xs ih =>
      simp [cumprod, ih, List.map_map, Function.comp, mul_assoc]

theorem rcp_cons (x : ℕ) (xs : List ℕ) :
    (cumprod (x :: xs).reverse).reverse
      = (x * xs.prod) :: (cumprod xs.reverse).reverse := by
  rw [List.reverse_cons, cumprod_append]
  simp [cumprod, List.prod_reverse, mul_comm]

theorem latents_bases_cons (s t : ℕ) (ts : List ℕ) :
    latents_bases (s :: t :: ts) = (t :: ts).prod :: latents_bases (t :: ts) := by
  unfold latents_bases
  rw [rcp_cons, rcp_cons]
  simp

theorem encodeIdx_cons (s : ℕ) (ss : List ℕ) (v : ℕ) (vs : List ℕ)
    (h : vs.length = ss.length) :
    encodeIdx (s :: ss) (v :: vs) = v * ss.prod + encodeIdx ss vs := by
  cases ss with
  | nil =>
      cases vs with
      | nil => simp [encodeIdx, latents_bases, dotL, cumprod]
      | cons w ws => simp at h
  | cons t ts =>
      simp [encodeIdx, latents_bases_cons, dotL]

theorem encodeIdx_lt {sizes vs : List ℕ} (h : List.Forall₂ (· < ·) vs sizes) :
    encodeIdx sizes vs < sizes.prod := by
  induction h with
  | nil => simp [encodeIdx, latents_bases, dotL, cumprod]
  | @cons v s vs ss hvs htail ih =>
      rw [encodeIdx_cons _ _ _ _ htail.length_eq, List.prod_cons]
      have h1 : v * ss.prod + encodeIdx ss vs < (v + 1) * ss.prod := by
        rw [add_mul, one_mul]
        exact Nat.add_lt_add_left ih _
      exact lt_of_lt_of_le h1 (Nat.mul_le_mul_right _ hvs)

theorem decodeIdx_encodeIdx {sizes vs : List ℕ}
    (h : List.Forall₂ (· < ·) vs sizes) :
    decodeIdx sizes (encodeIdx sizes vs) = vs := by
  induction h with
  | nil => rfl
  | @cons v s vs ss hvs htail ih =>
      have he : encodeIdx ss vs < ss.prod := encodeIdx_lt htail
      rw [encodeIdx_cons _ _ _ _ htail.length_eq]
      show (v * ss.prod + encodeIdx ss vs) / ss.prod
            :: decodeIdx ss ((v * ss.prod + encodeIdx ss vs) % ss.prod)
          = v :: vs
      have hP : 0 < ss.prod := lt_of_le_of_lt (Nat.zero_le _) he
      rw [add_comm (v * ss.prod), Nat.add_mul_div_right _ _ hP,
        Nat.div_eq_of_lt he, Nat.add_mul_mod_self_right,
        Nat.mod_eq_of_lt he, ih]
      simp

theorem decodeIdx_valid_encode {sizes : List ℕ} :
    ∀ n, n < sizes.prod →
      List.Forall₂ (· < ·) (decodeIdx sizes n) sizes ∧
        encodeIdx sizes (decodeIdx sizes n) = n := by
  induction sizes with
  | nil =>
      intro n hn
      simp only [List.prod_nil, Nat.lt_one_iff] at hn
      subst hn
      exact ⟨List.Forall₂.nil,
        by simp [encodeIdx, latents_bases, dotL, cumprod, decodeIdx]⟩
  | cons s ss ih =>
      intro n hn
      rw [List.prod_cons] at hn
      have hP : 0 < ss.prod := by
        rcases Nat.eq_zero_or_pos ss.prod with h0 | h
        · rw [h0, mul_zero] at hn
          exact absurd hn (Nat.not_lt_zero n)
        · exact h
      have hdiv : n / ss.prod < s := (Nat.div_lt_iff_lt_mul hP).2 hn
      have hmod : n % ss.prod < ss.prod := Nat.mod_lt _ hP
      obtain ⟨h1, h2⟩ := ih (n % ss.prod) hmod
      refine ⟨List.Forall₂.cons hdiv h1, ?_⟩
      show encodeIdx (s :: ss) (n / ss.prod :: decodeIdx ss (n % ss.prod)) = n
      rw [encodeIdx_cons _ _ _ _ (by simpa using h1.length_eq), h2]
      rw [mul_comm, Nat.div_add_mod]

/-- C3: for every ordered sequence of factor cardinalities, the mixed-radix
encoding of `_images_from_data_gen` (dot product with the reversed cumulative
product basis, last factor fastest) is a bijection from the factor-value tuple
space onto `[0, N)` with `N` the product of the cardinalities, and per-factor
division/modulo decoding recovers every valid tuple. -/
theorem C3_mixed_radix_bijection (sizes : List ℕ) :
    (∀ vs, List.Forall₂ (· < ·) vs sizes →
      encodeIdx sizes vs < sizes.prod ∧
        decodeIdx sizes (encodeIdx sizes vs) = vs) ∧
    (∀ n, n < sizes.prod →
      List.Forall₂ (· < ·) (decodeIdx sizes n) sizes ∧
        encodeIdx sizes (decodeIdx sizes n) = n) :=
  ⟨fun _ h => ⟨encodeIdx_lt h, decodeIdx_encodeIdx h⟩,
   fun _ hn => decodeIdx_valid_encode _ hn⟩

/-- Witness for C3 at the concrete cardinalities `[4, 6]` and tuple `[2, 3]`. -/
theorem C3_mixed_radix_bijection_witness :
    List.Forall₂ (· < ·) [2, 3] [4, 6] ∧
      (encodeIdx [4, 6] [2, 3] < List.prod [4, 6] ∧
        decodeIdx [4, 6] (encodeIdx [4, 6] [2, 3]) = [2, 3]) :=
  ⟨by decide, (C3_mixed_radix_bijection [4, 6]).1 [2, 3] (by decide)⟩

/-! ### Score aggregators (`_mutual_information_gap`, `_axis_aligned_metric`) -/

/-- Largest entry of a non-negative mutual-information row (spec-side notion:
"the largest MI"); for the all-non-negative rows produced by the clamp this is
the row maximum. -/
def topMI (r : List ℚ) : ℚ := r.foldr max 0

/-- `mig_k = (sorted_mut_info[:, 0] - sorted_mut_info[:, 1]) / H_v` with
`H_v = torch.from_numpy(lat_sizes).float().log()` (lines 374-378).  The score
field `K` and the logarithm are parameters so that the definition stays
executable; the claim is stated at `K := ℝ` with `Real.log`. -/
def mig_k {K : Type} [Field K] (rlog : ℕ → K)
    (sorted : List (List ℚ)) (lat_sizes : List ℕ) : List K :=
  List.zipWith
    (fun r n => (((r.getD 0 0 : ℚ) : K) - ((r.getD 1 0 : ℚ) : K)) / rlog n)
    sorted lat_sizes

/-- `mig = mig_k.mean()` (line 379): mean over factors of variation. -/
def mig {K : Type} [Field K] (rlog : ℕ → K)
    (sorted : List (List ℚ)) (lat_sizes : List ℕ) : K :=
  (mig_k rlog sorted lat_sizes).sum / ((mig_k rlog sorted lat_sizes).length : K)

/-- IEEE-style scalar: a finite float (modelled as a rational), a signed
infinity, or not-a-number. -/
inductive FVal where
  | fin : ℚ → FVal
  | pinf : FVal
  | ninf : FVal
  | nan : FVal
deriving DecidableEq

/-- IEEE-style addition on `FVal`. -/
def fadd : FVal → FVal → FVal
  | .fin a, .fin b => .fin (a + b)
  | .nan, _ => .nan
  | _, .nan => .nan
  | .pinf, .ninf => .nan
  | .ninf, .pinf => .nan
  | .pinf, _ => .pinf
  | _, .pinf => .pinf
  | .ninf, _ => .ninf
  | _, .ninf => .ninf

/-- IEEE-style division on `FVal`: division of a finite nonzero value by zero
gives a signed infinity, and `0 / 0` gives not-a-number. -/
def fdiv : FVal → FVal → FVal
  | .fin a, .fin b =>
      if b = 0 then (if a = 0 then .nan else if 0 < a then .pinf else .ninf)
      else .fin (a / b)
  | .nan, _ => .nan
  | _, .nan => .nan
  | .pinf, .pinf => .nan
  | .pinf, .ninf => .nan
  | .ninf, .pinf => .nan
  | .ninf, .ninf => .nan
  | .pinf, .fin b => if 0 ≤ b then .pinf else .ninf
  | .ninf, .fin b => if 0 ≤ b then .ninf else .pinf
  | .fin _, .pinf => .fin 0
  | .fin _, .ninf => .fin 0

/-- `aam_k[torch.isnan(aam_k)] = 0` (line 391), applied entrywise. -/
def isnanReplaceZero (v : FVal) : FVal :=
  if v = .nan then .fin 0 else v

/-- `numerator = (sorted_mut_info[:, 0] - sorted_mut_info[:, 1:].sum(dim=1)).clamp(min=0)`
followed by `aam_k = numerator / sorted_mut_info[:, 0]` and the isnan
replacement (lines 389-391). -/
def aam_k (sorted : List (List ℚ)) : List FVal :=
  sorted.map (fun r =>
    isnanReplaceZero
      (fdiv (.fin (max ((r.getD 0 0) - (r.drop 1).sum) 0)) (.fin (r.getD 0 0))))

/-- `torch.mean` of a vector of IEEE-style scalars: sum divided by length. -/
def fmean (l : List FVal) : FVal :=
  fdiv (l.foldr fadd (.fin 0)) (.fin (l.length : ℚ))

/-- `aam = aam_k.mean()` (line 392). -/
def aam (sorted : List (List ℚ)) : FVal := fmean (aam_k sorted)

theorem topMI_le {r : List ℚ} {a : ℚ} (h : ∀ x ∈ r, x ≤ a) (ha : 0 ≤ a) :
    topMI r ≤ a := by
  induction r with
  | nil => exact ha
  | cons x xs ih =>
      simp only [topMI, List.foldr_cons, max_le_iff]
      exact ⟨h x (by simp), ih (fun y hy => h y (by simp [hy]))⟩

theorem topMI_cons_sorted {a : ℚ} {t : List ℚ}
    (hs : List.Sorted (· ≥ ·) (a :: t)) (hn : ∀ x ∈ a :: t, 0 ≤ x) :
    topMI (a :: t) = a := by
  have ht : topMI t ≤ a :=
    topMI_le (fun x hx => (List.sorted_cons.1 hs).1 x hx) (hn a (by simp))
  simp only [topMI, List.foldr_cons] at ht ⊢
  exact max_eq_left ht

theorem row_top_two {r : List ℚ} (hs : List.Sorted (· ≥ ·) r)
    (hn : ∀ x ∈ r, 0 ≤ x) (hl : 2 ≤ r.length) :
    r.getD 0 0 = topMI r ∧ r.getD 1 0 = topMI (r.erase (topMI r)) := by
  match r, hl with
  | a :: b :: t, _ =>
      have h1 : topMI (a :: b :: t) = a := topMI_cons_sorted hs hn
      have h2 : topMI (b :: t) = b :=
        topMI_cons_sorted (List.sorted_cons.1 hs).2
          (fun x hx => hn x (by simp [hx]))
      refine ⟨h1.symm, ?_⟩
      rw [h1, List.erase_cons_head, h2]
      rfl

theorem zipWith_congr_left {α β γ : Type} (f g : α → β → γ) (l : List α)
    (l2 : List β) (h : ∀ a ∈ l, ∀ b, f a b = g a b) :
    List.zipWith f l l2 = List.zipWith g l l2 := by
  induction l generalizing l2 with
  | nil => simp
  | cons x xs ih =>
      cases l2 with
      | nil => simp
      | cons y ys =>
          simp only [List.zipWith_cons_cons]
          rw [h x (by simp) y, ih ys (fun a ha b => h a (by simp [ha]) b)]

/-- C4: on a row-sorted-descending, zero-clamped mutual-information table, the
MIG of `_mutual_information_gap` is the mean over factors of (largest MI minus
second-largest MI) divided by the natural log of the factor cardinality. -/
theorem C4_mig_top_two_gap (sorted : List (List ℚ)) (lat_sizes : List ℕ)
    (hrows : ∀ r ∈ sorted,
      List.Sorted (· ≥ ·) r ∧ (∀ x ∈ r, 0 ≤ x) ∧ 2 ≤ r.length)
    (hlen : sorted.length = lat_sizes.length) :
    mig (fun n : ℕ => Real.log n) sorted lat_sizes =
      (List.zipWith
        (fun (r : List ℚ) (n : ℕ) =>
          (((topMI r : ℚ) : ℝ) - ((topMI (r.erase (topMI r)) : ℚ) : ℝ))
            / Real.log n)
        sorted lat_sizes).sum / (lat_sizes.length : ℝ) := by
  have hz : mig_k (fun n : ℕ => Real.log n) sorted lat_sizes =
      List.zipWith
        (fun (r : List ℚ) (n : ℕ) =>
          (((topMI r : ℚ) : ℝ) - ((topMI (r.erase (topMI r)) : ℚ) : ℝ))
            / Real.log n)
        sorted lat_sizes := by
    apply zipWith_congr_left
    intro r hr n
    obtain ⟨hs, hnn, hl⟩ := hrows r hr
    obtain ⟨e0, e1⟩ := row_top_two hs hnn hl
    rw [e0, e1]
  rw [mig, hz, List.length_zipWith, hlen, min_self]

/-- Witness for C4 at the table `[[2, 1], [1, 0]]` with cardinalities `[4, 6]`. -/
theorem C4_mig_top_two_gap_witness :
    (∀ r ∈ ([[2, 1], [1, 0]] : List (List ℚ)),
      List.Sorted (· ≥ ·) r ∧ (∀ x ∈ r, 0 ≤ x) ∧ 2 ≤ r.length) ∧
    ([[2, 1], [1, 0]] : List (List ℚ)).length = ([4, 6] : List ℕ).length ∧
    mig (fun n : ℕ => Real.log n) [[2, 1], [1, 0]] [4, 6] =
      (List.zipWith
        (fun (r : List ℚ) (n : ℕ) =>
          (((topMI r : ℚ) : ℝ) - ((topMI (r.erase (topMI r)) : ℚ) : ℝ))
            / Real.log n)
        ([[2, 1], [1, 0]] : List (List ℚ)) ([4, 6] : List ℕ)).sum
        / (([4, 6] : List ℕ).length : ℝ) :=
  ⟨by decide, by decide,
    C4_mig_top_two_gap [[2, 1], [1, 0]] [4, 6] (by decide) (by decide)⟩

theorem foldr_fadd_fin (l : List ℚ) :
    (l.map FVal.fin).foldr fadd (.fin 0) = .fin l.sum := by
  induction l with
  | nil => rfl
  | cons x xs ih => simp [fadd, ih]

/-- C5: on a row-sorted-descending non-negative mutual-information table, the
AAM of `_axis_aligned_metric` is the finite mean over factors of
`max(top1 - sum of the others, 0) / top1`, a zero `top1` contributing zero for
that factor, and the output is never not-a-number (including on all-zero
rows). -/
theorem C5_aam_no_nan (sorted : List (List ℚ))
    (hne : 0 < sorted.length)
    (hrows : ∀ r ∈ sorted,
      List.Sorted (· ≥ ·) r ∧ (∀ x ∈ r, 0 ≤ x) ∧ 1 ≤ r.length) :
    aam sorted =
      FVal.fin ((sorted.map (fun r =>
          if topMI r = 0 then 0
          else max (topMI r - (r.erase (topMI r)).sum) 0 / topMI r)).sum
        / (sorted.length : ℚ)) ∧
    aam sorted ≠ FVal.nan := by
  have hk : aam_k sorted = (sorted.map (fun r =>
      if topMI r = 0 then 0
      else max (topMI r - (r.erase (topMI r)).sum) 0 / topMI r)).map FVal.fin := by
    unfold aam_k
    rw [List.map_map]
    apply List.map_congr_left
    intro r hr
    simp only [Function.comp_apply]
    obtain ⟨hs, hnn, hl⟩ := hrows r hr
    match r, hl with
    | a :: t, _ =>
        have h1 : topMI (a :: t) = a := topMI_cons_sorted hs hnn
        have hdrop : (a :: t).drop 1 = t := rfl
        have hget : (a :: t).getD 0 0 = a := rfl
        rw [hget, hdrop, h1, List.erase_cons_head]
        by_cases ha : a = 0
        · have htz : ∀ x ∈ t, x = (0 : ℚ) := by
            intro x hx
            have hub : x ≤ a := (List.sorted_cons.1 hs).1 x hx
            have hlb : 0 ≤ x := hnn x (by simp [hx])
            rw [ha] at hub
            exact le_antisymm hub hlb
          have hsum : t.sum = 0 := List.sum_eq_zero htz
          simp [ha, hsum, fdiv, isnanReplaceZero]
        · simp [fdiv, ha, isnanReplaceZero]
  have hne0 : ((sorted.length : ℚ)) ≠ 0 := Nat.cast_ne_zero.2 (by omega)
  have heq : aam sorted =
      FVal.fin ((sorted.map (fun r =>
          if topMI r = 0 then 0
          else max (topMI r - (r.erase (topMI r)).sum) 0 / topMI r)).sum
        / (sorted.length : ℚ)) := by
    rw [aam, fmean, hk, foldr_fadd_fin]
    simp only [List.length_map]
    simp [fdiv, hne0]
  exact ⟨heq, by rw [heq]; simp⟩

/-- Witness for C5 at the table `[[0, 0], [3, 1]]`, whose first row is the
degenerate all-zero mutual-information row. -/
theorem C5_aam_no_nan_witness :
    0 < ([[0, 0], [3, 1]] : List (List ℚ)).length ∧
    ((∀ r ∈ ([[0, 0], [3, 1]] : List (List ℚ)),
      List.Sorted (· ≥ ·) r ∧ (∀ x ∈ r, 0 ≤ x) ∧ 1 ≤ r.length) ∧
    (aam [[0, 0], [3, 1]] =
      FVal.fin ((([[0, 0], [3, 1]] : List (List ℚ)).map (fun r =>
          if topMI r = 0 then 0
          else max (topMI r - (r.erase (topMI r)).sum) 0 / topMI r)).sum
        / (([[0, 0], [3, 1]] : List (List ℚ)).length : ℚ)) ∧
      aam [[0, 0], [3, 1]] ≠ FVal.nan)) :=
  ⟨by decide, by decide, C5_aam_no_nan [[0, 0], [3, 1]] (by decide) (by decide)⟩

/-! ### Marginal-entropy estimator (`_estimate_latent_entropies`, lines 475-501) -/

/-- Python `range(0, S, b)` for a positive step `b`: the multiples of `b`
below `S`, in increasing order. -/
def stepRange (S b : ℕ) : List ℕ :=
  (List.range S).filter (fun k => k % b == 0)

/-- `log_q_z = -log_N + torch.logsumexp(log_q_zCx, dim=0)` (line 492) for one
pivot `s`, with `logq n s` the Gaussian log-density `log q(z_s | x_n)` kept
abstract (it is computed by `disvae.utils.math.log_density_gaussian`).  The
scalar field and the `log`/`exp` maps are parameters so the definition stays
executable; the claim is stated at `K := ℝ` with `Real.log` and `Real.exp`. -/
def log_q_z {K : Type} [Field K] (lg ex : K → K) (logq : ℕ → ℕ → K)
    (N : ℕ) (s : ℕ) : K :=
  -lg (N : K) + lg (∑ n ∈ Finset.range N, ex (logq n s))

/-- The minibatched accumulation loop of `_estimate_latent_entropies`
(lines 480-499): for `k in range(0, n_samples, mini_batch_size)` accumulate
`(-log_q_z)` over the pivot slice `[k, k + mini_batch_size)` (clamped at
`n_samples`), then divide by `n_samples`. -/
def H_z_minibatched {K : Type} [Field K] (lg ex : K → K) (logq : ℕ → ℕ → K)
    (N S b : ℕ) : K :=
  ((stepRange S b).map
    (fun k => ∑ s ∈ Finset.Ico k (min (k + b) S),
      -(log_q_z lg ex logq N s))).sum / (S : K)

/-- Modelled from the spec: the all-at-once estimate, the average over the `S`
pivots of `log N` minus the logsumexp of the `N` posterior log-densities. -/
def H_z_direct {K : Type} [Field K] (lg ex : K → K) (logq : ℕ → ℕ → K)
    (N S : ℕ) : K :=
  (∑ s ∈ Finset.range S,
    (lg (N : K) - lg (∑ n ∈ Finset.range N, ex (logq n s)))) / (S : K)

theorem stepRange_le_succ {b k1 k2 : ℕ} (h1 : k1 % b = 0) (h2 : k2 % b = 0)
    (hlt : k1 < k2) : k1 + b ≤ k2 := by
  obtain ⟨c1, rfl⟩ := Nat.dvd_of_mod_eq_zero h1
  obtain ⟨c2, rfl⟩ := Nat.dvd_of_mod_eq_zero h2
  have hb : 0 < b := by
    rcases Nat.eq_zero_or_pos b with h0 | h
    · subst h0; simp at hlt
    · exact h
  have hc : c1 < c2 := lt_of_mul_lt_mul_left hlt (Nat.zero_le b)
  calc b * c1 + b = b * (c1 + 1) := by ring
    _ ≤ b * c2 := Nat.mul_le_mul_left b hc

theorem sum_chunks {M : Type} [AddCommMonoid M] (f : ℕ → M) (S b : ℕ)
    (hb : 1 ≤ b) :
    ((stepRange S b).map
      (fun k => ∑ s ∈ Finset.Ico k (min (k + b) S), f s)).sum
      = ∑ s ∈ Finset.range S, f s := by
  have hnodup : (stepRange S b).Nodup :=
    (List.nodup_range S).filter _
  have htf : (stepRange S b).toFinset
      = (Finset.range S).filter (fun k => k % b = 0) := by
    ext k
    simp [stepRange, List.mem_filter, Nat.beq_eq]
  have hlist : ((stepRange S b).map
      (fun k => ∑ s ∈ Finset.Ico k (min (k + b) S), f s)).sum
      = ∑ k ∈ (Finset.range S).filter (fun k => k % b = 0),
          ∑ s ∈ Finset.Ico k (min (k + b) S), f s := by
    rw [← htf, List.sum_toFinset _ hnodup]
  rw [hlist]
  have hdisj : Set.PairwiseDisjoint
      ↑((Finset.range S).filter (fun k => k % b = 0))
      (fun k => Finset.Ico k (min (k + b) S)) := by
    intro k1 hk1 k2 hk2 hne
    simp only [Finset.coe_filter, Set.mem_setOf_eq, Finset.mem_range] at hk1 hk2
    apply Finset.disjoint_left.2
    intro x hx1 hx2
    simp only [Finset.mem_Ico, lt_min_iff] at hx1 hx2
    rcases Nat.lt_or_ge k1 k2 with hlt | hge
    · have := stepRange_le_succ hk1.2 hk2.2 hlt
      omega
    · have hlt2 : k2 < k1 := lt_of_le_of_ne hge (Ne.symm hne)
      have := stepRange_le_succ hk2.2 hk1.2 hlt2
      omega
  have hcover : Finset.range S
      = ((Finset.range S).filter (fun k => k % b = 0)).biUnion
          (fun k => Finset.Ico k (min (k + b) S)) := by
    ext s
    simp only [Finset.mem_biUnion, Finset.mem_filter, Finset.mem_range,
      Finset.mem_Ico, lt_min_iff]
    constructor
    · intro hs
      refine ⟨b * (s / b), ⟨?_, ?_⟩, ?_, ?_, hs⟩
      · exact lt_of_le_of_lt (Nat.mul_div_le s b) hs
      · exact Nat.mul_mod_right b _
      · exact Nat.mul_div_le s b
      · have hmod : s % b < b := Nat.mod_lt s hb
        have hsplit : b * (s / b) + s % b = s := Nat.div_add_mod s b
        omega
    · rintro ⟨k, _, _, _, hsS⟩
      exact hsS
  conv_rhs => rw [hcover]
  rw [Finset.sum_biUnion hdisj]

/-- C6: the marginal-entropy estimate of `_estimate_latent_entropies` is, in
exact arithmetic, independent of the internal minibatch size: for every
positive minibatch size it equals the average over pivots of (log N minus the
logsumexp of the N posterior log-densities). -/
theorem C6_minibatch_invariance (logq : ℕ → ℕ → ℝ) (N S b : ℕ) (hb : 1 ≤ b) :
    H_z_minibatched Real.log Real.exp logq N S b
      = H_z_direct Real.log Real.exp logq N S := by
  rw [H_z_minibatched, H_z_direct, sum_chunks _ _ _ hb]
  congr 1
  apply Finset.sum_congr rfl
  intro s _
  rw [log_q_z]
  ring

/-- Witness for C6 at the default minibatch size 10 with 25 pivots and 3
posterior components. -/
theorem C6_minibatch_invariance_witness :
    1 ≤ 10 ∧
      H_z_minibatched Real.log Real.exp (fun _ _ => 0) 3 25 10
        = H_z_direct Real.log Real.exp (fun _ _ => 0) 3 25 :=
  ⟨by decide, C6_minibatch_invariance (fun _ _ => 0) 3 25 10 (by decide)⟩

/-! ### Conditional-entropy loop (`_estimate_H_zCv`, lines 503-521) -/

/-- All factor-value tuples of the given cardinalities in row-major order,
the last factor varying fastest: the memory order of a tensor reshaped to
`view(*lat_sizes, latent_dim)`. -/
def allTuples : List ℕ → List (List ℕ)
  | [] => [[]]
  | s :: ss => (List.range s).flatMap (fun v => (allTuples ss).map (v :: ·))

/-- The slice `samples_zCx[idcs]` with `idcs[i_fac_var] = i`, followed by
`.contiguous().view(len_dataset // lat_size, latent_dim)` (lines 512-517):
fix coordinate `k` of the factor grid to `v` and flatten the remaining axes
in row-major order.  `flat` is the flat dataset-order table, the grid being
its reshape `t ↦ flat (encodeIdx sizes t)`. -/
def sliceFactor {α : Type} (flat : ℕ → α) (sizes : List ℕ) (k v : ℕ) :
    List α :=
  (allTuples (sizes.eraseIdx k)).map
    (fun ts => flat (encodeIdx sizes (ts.insertIdx k v)))

/-- Modelled from the spec: exactly the examples whose factor `k` equals `v`,
in dataset order. -/
def specSliceFactor {α : Type} (flat : ℕ → α) (sizes : List ℕ) (k v : ℕ) :
    List α :=
  ((allTuples sizes).filter (fun t => t.getD k 0 == v)).map
    (fun t => flat (encodeIdx sizes t))

/-- One row of `_estimate_H_zCv` (lines 508-520): for factor `k`, accumulate
over its values `v` the inner estimate on the factor-`v` slice divided by the
cardinality.  The inner estimator `E` (`_estimate_latent_entropies`) is a
parameter. -/
def estimate_H_zCv {α K : Type} [Field K] (E : List α → K) (flat : ℕ → α)
    (sizes : List ℕ) (k : ℕ) : K :=
  ∑ v ∈ Finset.range (sizes.getD k 0),
    E (sliceFactor flat sizes k v) / (sizes.getD k 0 : K)

theorem flatMap_single {α : Type} (L : List α) (s v : ℕ) (hv : v < s) :
    (List.range s).flatMap (fun w => if w = v then L else []) = L := by
  induction s with
  | zero => omega
  | succ n ih =>
      rw [List.range_succ, List.flatMap_append]
      rcases Nat.lt_or_ge v n with h | h
      · rw [ih h]
        have hne : n ≠ v := by omega
        simp [hne]
      · have hveq : v = n := by omega
        subst hveq
        have hzero : (List.range v).flatMap
            (fun w => if w = v then L else []) = [] := by
          rw [List.flatMap_eq_nil_iff]
          intro a ha
          have : a ≠ v := by
            have := List.mem_range.1 ha
            omega
          simp [this]
        rw [hzero]
        simp

theorem allTuples_filter_eq (sizes : List ℕ) (k v : ℕ)
    (hk : k < sizes.length) (hv : v < sizes.getD k 0) :
    (allTuples sizes).filter (fun t => t.getD k 0 == v)
      = (allTuples (sizes.eraseIdx k)).map (fun ts => ts.insertIdx k v) := by
  induction sizes generalizing k with
  | nil => simp at hk
  | cons s ss ih =>
      cases k with
      | zero =>
          simp only [List.getD_cons_zero] at hv
          show ((List.range s).flatMap
              (fun w => (allTuples ss).map (w :: ·))).filter _ = _
          rw [List.filter_flatMap]
          have hinner : ∀ w, ((allTuples ss).map (w :: ·)).filter
              (fun t => t.getD 0 0 == v)
              = if w = v then (allTuples ss).map (v :: ·) else [] := by
            intro w
            by_cases hw : w = v
            · subst hw
              have hp : (fun t : List ℕ => t.getD 0 0 == w) ∘ (w :: ·)
                  = fun _ => true := by
                funext t
                simp
              rw [List.filter_map, hp, List.filter_true, if_pos rfl]
            · have hp : (fun t : List ℕ => t.getD 0 0 == v) ∘ (w :: ·)
                  = fun _ => false := by
                funext t
                simp [hw]
              rw [List.filter_map, hp, List.filter_false, if_neg hw, List.map_nil]
          have : ((List.range s).flatMap (fun w =>
              ((allTuples ss).map (w :: ·)).filter (fun t => t.getD 0 0 == v)))
              = (List.range s).flatMap (fun w =>
                if w = v then (allTuples ss).map (v :: ·) else []) := by
            apply List.flatMap_congr
            intro w _
            exact hinner w
          rw [this, flatMap_single _ _ _ hv]
          simp [List.eraseIdx, List.insertIdx]
      | succ k =>
          simp only [List.length_cons, Nat.succ_lt_succ_iff] at hk
          simp only [List.getD_cons_succ] at hv
          show ((List.range s).flatMap
              (fun w => (allTuples ss).map (w :: ·))).filter _ = _
          rw [List.filter_flatMap]
          have hinner : ∀ w, ((allTuples ss).map (w :: ·)).filter
              (fun t => t.getD (k + 1) 0 == v)
              = ((allTuples ss).filter (fun t => t.getD k 0 == v)).map
                  (w :: ·) := by
            intro w
            have hcomp : (fun t : List ℕ => t.getD (k + 1) 0 == v) ∘ (w :: ·)
                = fun t : List ℕ => t.getD k 0 == v := by
              funext t
              simp
            rw [List.filter_map, hcomp]
          have hstep : ((List.range s).flatMap (fun w =>
              ((allTuples ss).map (w :: ·)).filter
                (fun t => t.getD (k + 1) 0 == v)))
              = (List.range s).flatMap (fun w =>
                ((allTuples (ss.eraseIdx k)).map (fun ts => ts.insertIdx k v)).map
                  (w :: ·)) := by
            apply List.flatMap_congr
            intro w _
            rw [hinner w, ih k hk hv]
          rw [hstep]
          show _ = (allTuples (s :: ss.eraseIdx k)).map
              (fun ts => ts.insertIdx (k + 1) v)
          show _ = ((List.range s).flatMap
              (fun w => (allTuples (ss.eraseIdx k)).map (w :: ·))).map
              (fun ts => ts.insertIdx (k + 1) v)
          rw [List.map_flatMap]
          apply List.flatMap_congr
          intro w _
          simp [List.map_map, Function.comp, List.insertIdx_succ_cons]

theorem allTuples_length (sizes : List ℕ) :
    (allTuples sizes).length = sizes.prod := by
  induction sizes with
  | nil => rfl
  | cons s ss ih =>
      show ((List.range s).flatMap (fun v => (allTuples ss).map (v :: ·))).length
          = (s :: ss).prod
      rw [List.length_flatMap]
      have : (List.range s).map
          (List.length ∘ fun v => (allTuples ss).map (v :: ·))
          = (List.range s).map (fun _ => ss.prod) := by
        apply List.map_congr_left
        intro v _
        simp [Function.comp, ih]
      rw [this]
      simp [List.map_const, mul_comm]

theorem prod_eraseIdx (sizes : List ℕ) (k : ℕ) (hk : k < sizes.length) :
    sizes.prod = sizes.getD k 0 * (sizes.eraseIdx k).prod := by
  induction sizes generalizing k with
  | nil => simp at hk
  | cons s ss ih =>
      cases k with
      | zero => simp [List.eraseIdx]
      | succ k =>
          simp only [List.length_cons, Nat.succ_lt_succ_iff] at hk
          show (s :: ss).prod = ss.getD k 0 * (s :: ss.eraseIdx k).prod
          rw [List.prod_cons, List.prod_cons, ih k hk]
          ring

/-- C7: `_estimate_H_zCv` computes, for factor `k`, the uniform average over
its values `v` of the marginal-entropy estimator applied to exactly the
examples whose factor `k` equals `v`, each per-value entropy weighted by one
over the cardinality, and each conditioned slice having size `N` divided by
the cardinality. -/
theorem C7_conditional_entropy_slices {α : Type} (E : List α → ℝ)
    (flat : ℕ → α) (sizes : List ℕ) (k : ℕ)
    (hk : k < sizes.length) (hpos : 0 < sizes.getD k 0) :
    estimate_H_zCv E flat sizes k
      = (∑ v ∈ Finset.range (sizes.getD k 0),
          E (specSliceFactor flat sizes k v)) / (sizes.getD k 0 : ℝ) ∧
    ∀ v, v < sizes.getD k 0 →
      sliceFactor flat sizes k v = specSliceFactor flat sizes k v ∧
      (specSliceFactor flat sizes k v).length
        = sizes.prod / sizes.getD k 0 := by
  have hslice : ∀ v, v < sizes.getD k 0 →
      sliceFactor flat sizes k v = specSliceFactor flat sizes k v := by
    intro v hv
    rw [specSliceFactor, allTuples_filter_eq sizes k v hk hv,
      List.map_map]
    rfl
  have hlen : ∀ v, v < sizes.getD k 0 →
      (specSliceFactor flat sizes k v).length
        = sizes.prod / sizes.getD k 0 := by
    intro v hv
    rw [← hslice v hv, sliceFactor, List.length_map, allTuples_length,
      prod_eraseIdx sizes k hk, Nat.mul_div_cancel_left _ hpos]
  refine ⟨?_, fun v hv => ⟨hslice v hv, hlen v hv⟩⟩
  rw [estimate_H_zCv, ← Finset.sum_div]
  congr 1
  apply Finset.sum_congr rfl
  intro v hv
  rw [hslice v (Finset.mem_range.1 hv)]

/-- Witness for C7 at cardinalities `[2, 3]`, factor `k = 1`, the identity
flat table and the slice-length estimator. -/
theorem C7_conditional_entropy_slices_witness :
    (1 < ([2, 3] : List ℕ).length ∧ 0 < ([2, 3] : List ℕ).getD 1 0) ∧
    (estimate_H_zCv (fun l : List ℕ => (l.length : ℝ)) (fun n => n) [2, 3] 1
      = (∑ v ∈ Finset.range (([2, 3] : List ℕ).getD 1 0),
          ((specSliceFactor (fun n => n) [2, 3] 1 v).length : ℝ))
        / ((([2, 3] : List ℕ).getD 1 0) : ℝ) ∧
    ∀ v, v < ([2, 3] : List ℕ).getD 1 0 →
      sliceFactor (fun n => n) [2, 3] 1 v
          = specSliceFactor (fun n => n) [2, 3] 1 v ∧
      (specSliceFactor (fun n => n) [2, 3] 1 v).length
        = ([2, 3] : List ℕ).prod / ([2, 3] : List ℕ).getD 1 0) :=
  ⟨⟨by decide, by decide⟩,
    C7_conditional_entropy_slices (fun l : List ℕ => (l.length : ℝ))
      (fun n => n) [2, 3] 1 (by decide) (by decide)⟩

/-! ### Paired-sample generator (`_images_from_data_gen`, lines 338-362, and
`_compute_z_b_diff_y`, lines 297-336) -/

/-- One `np.random.randint(bound)` draw read from position `pos` of the raw
random stream `ρ`: the NumPy global generator is modelled as an infinite
stream of raw numbers consumed one per requested value (a size-`m` call
consumes `m` consecutive positions), each draw reducing its raw number
modulo the bound. -/
def randint (ρ : ℕ → ℕ) (pos bound : ℕ) : ℕ := ρ pos % bound

/-- The factor-sampling loop of `_images_from_data_gen` (lines 348-350): for
each factor `i` in order, column `i` of `samples1` is `y_lat` when `i == y`
and otherwise `sample_size` fresh draws bounded by the factor cardinality,
then column `i` of `samples2` likewise; `c` is the next unconsumed stream
position (the conditional expression consumes no draws on the `i == y`
columns).  Returns the two column lists and the final stream position. -/
def buildCols (ρ ylat : ℕ → ℕ) (y S : ℕ) :
    List ℕ → ℕ → ℕ → List (ℕ → ℕ) × List (ℕ → ℕ) × ℕ
  | [], _, c => ([], [], c)
  | sz :: rest, i, c =>
      if i = y then
        let t := buildCols ρ ylat y S rest (i + 1) c
        (ylat :: t.1, ylat :: t.2.1, t.2.2)
      else
        let t := buildCols ρ ylat y S rest (i + 1) (c + 2 * S)
        ((fun s => randint ρ (c + s) sz) :: t.1,
         (fun s => randint ρ (c + S + s) sz) :: t.2.1, t.2.2)

/-- `_images_from_data_gen` (lines 338-362): draw the fixed factor index `y`
(one draw, stream position 0), the shared values `y_lat` (`sample_size`
draws, positions `1 .. sample_size`), then fill both factor matrices column
by column.  Returns the columns of `samples1`, the columns of `samples2`,
and `y`. -/
def imagesFromDataGen (ρ : ℕ → ℕ) (sizes : List ℕ) (S : ℕ) :
    List (ℕ → ℕ) × List (ℕ → ℕ) × ℕ :=
  let y := randint ρ 0 sizes.length
  let ylat := fun s => randint ρ (1 + s) (sizes.getD y 0)
  let t := buildCols ρ ylat y S sizes 0 (1 + S)
  (t.1, t.2.1, y)

/-- Row `s` of a factor matrix given by its columns. -/
def rowOf (cols : List (ℕ → ℕ)) (s : ℕ) : List ℕ :=
  cols.map (fun col => col s)

/-- `_compute_z_b_diff_y` (lines 297-336) for one abstract representation:
`μ idx d` is dimension `d` of the representation of image `imgs[idx]` (the
encoder mean, PCA or ICA transform composed with the image gather at the
mixed-radix index).  The result is
`z_diff_b = torch.mean(torch.abs(mu1 - mu2), 0)` paired with the factor
label `y`. -/
def computeZbDiffY (ρ : ℕ → ℕ) (μ : ℕ → ℕ → ℚ) (sizes : List ℕ) (S : ℕ) :
    (ℕ → ℚ) × ℕ :=
  let g := imagesFromDataGen ρ sizes S
  let idx1 := fun s => encodeIdx sizes (rowOf g.1 s)
  let idx2 := fun s => encodeIdx sizes (rowOf g.2.1 s)
  (fun d => (∑ s ∈ Finset.range S, |μ (idx1 s) d - μ (idx2 s) d|) / (S : ℚ),
   g.2.2)

/-- Number of non-fixed factors with index below `i`. -/
def nonYCount (y i : ℕ) : ℕ :=
  ((List.range i).filter (fun t => t != y)).length

/-- Number of non-fixed factors among `i, i+1, ..., i+j-1`. -/
def cntNe (y i j : ℕ) : ℕ :=
  ((List.range j).filter (fun t => i + t != y)).length

/-- First stream position consumed for set 1's column of factor `i` (set 2's
column starts `S` positions further on). -/
def startPos (S y i : ℕ) : ℕ := 1 + S + 2 * S * nonYCount y i

theorem cntNe_succ (y i j : ℕ) :
    cntNe y i (j + 1) = (if i = y then 0 else 1) + cntNe y (i + 1) j := by
  unfold cntNe
  rw [List.range_succ_eq_map, List.filter_cons, List.filter_map]
  have hc : (fun t : ℕ => i + t != y) ∘ Nat.succ
      = fun t : ℕ => (i + 1) + t != y := by
    funext t
    have ht : i + Nat.succ t = (i + 1) + t := by omega
    simp only [Function.comp_apply, ht]
  rw [hc]
  by_cases hiy : i = y
  · subst hiy
    simp
  · simp [hiy]
    omega

theorem cntNe_zero_left (y j : ℕ) : cntNe y 0 j = nonYCount y j := by
  unfold cntNe nonYCount
  congr 1
  apply List.filter_congr
  intro t _
  rw [Nat.zero_add]

theorem nonYCount_succ (y i : ℕ) :
    nonYCount y (i + 1) = nonYCount y i + (if i = y then 0 else 1) := by
  unfold nonYCount
  rw [List.range_succ, List.filter_append]
  by_cases hiy : i = y <;> simp [hiy]

theorem nonYCount_mono (y : ℕ) {i j : ℕ} (h : i ≤ j) :
    nonYCount y i ≤ nonYCount y j := by
  induction j with
  | zero =>
      have : i = 0 := by omega
      subst this
      exact le_refl _
  | succ n ih =>
      rcases Nat.lt_or_ge i (n + 1) with hlt | hge
      · have hle : i ≤ n := by omega
        calc nonYCount y i ≤ nonYCount y n := ih hle
          _ ≤ nonYCount y (n + 1) := by rw [nonYCount_succ]; omega
      · have : i = n + 1 := by omega
        subst this
        exact le_refl _

theorem nonYCount_strict {y i j : ℕ} (hij : i < j) (hiy : i ≠ y) :
    nonYCount y i + 1 ≤ nonYCount y j := by
  have h1 : nonYCount y (i + 1) = nonYCount y i + 1 := by
    rw [nonYCount_succ]
    simp [hiy]
  calc nonYCount y i + 1 = nonYCount y (i + 1) := h1.symm
    _ ≤ nonYCount y j := nonYCount_mono y hij

theorem buildCols_spec (ρ ylat : ℕ → ℕ) (y S : ℕ) (l : List ℕ) :
    ∀ i c,
      (buildCols ρ ylat y S l i c).1.length = l.length ∧
      (buildCols ρ ylat y S l i c).2.1.length = l.length ∧
      ∀ j, j < l.length →
        (i + j = y →
          (buildCols ρ ylat y S l i c).1.getD j (fun _ => 0) = ylat ∧
          (buildCols ρ ylat y S l i c).2.1.getD j (fun _ => 0) = ylat) ∧
        (i + j ≠ y →
          (buildCols ρ ylat y S l i c).1.getD j (fun _ => 0)
            = (fun s => randint ρ (c + 2 * S * cntNe y i j + s) (l.getD j 0)) ∧
          (buildCols ρ ylat y S l i c).2.1.getD j (fun _ => 0)
            = (fun s =>
                randint ρ (c + 2 * S * cntNe y i j + S + s) (l.getD j 0))) := by
  induction l with
  | nil =>
      intro i c
      exact ⟨rfl, rfl, fun j hj => absurd hj (by simp)⟩
  | cons sz rest ih =>
      intro i c
      by_cases hiy : i = y
      · have hb1 : (buildCols ρ ylat y S (sz :: rest) i c).1
            = ylat :: (buildCols ρ ylat y S rest (i + 1) c).1 := by
          simp [buildCols, hiy]
        have hb2 : (buildCols ρ ylat y S (sz :: rest) i c).2.1
            = ylat :: (buildCols ρ ylat y S rest (i + 1) c).2.1 := by
          simp [buildCols, hiy]
        obtain ⟨hl1, hl2, hj⟩ := ih (i + 1) c
        refine ⟨by rw [hb1]; simp [hl1], by rw [hb2]; simp [hl2], ?_⟩
        intro j hj0
        cases j with
        | zero =>
            refine ⟨fun _ => ⟨?_, ?_⟩, fun hcon => absurd hiy (by simpa using hcon)⟩
            · rw [hb1, List.getD_cons_zero]
            · rw [hb2, List.getD_cons_zero]
        | succ j =>
            have hjlt : j < rest.length := by simpa using hj0
            obtain ⟨hy_eq, hy_ne⟩ := hj j hjlt
            constructor
            · intro hyy
              have hsh : (i + 1) + j = y := by omega
              obtain ⟨e1, e2⟩ := hy_eq hsh
              exact ⟨by rw [hb1, List.getD_cons_succ, e1],
                by rw [hb2, List.getD_cons_succ, e2]⟩
            · intro hyy
              have hne2 : (i + 1) + j ≠ y := by omega
              obtain ⟨e1, e2⟩ := hy_ne hne2
              have hcnt : cntNe y i (j + 1) = cntNe y (i + 1) j := by
                rw [cntNe_succ]
                simp [hiy]
              constructor
              · rw [hb1, List.getD_cons_succ, e1, List.getD_cons_succ, hcnt]
              · rw [hb2, List.getD_cons_succ, e2, List.getD_cons_succ, hcnt]
      · have hb1 : (buildCols ρ ylat y S (sz :: rest) i c).1
            = (fun s => randint ρ (c + s) sz)
                :: (buildCols ρ ylat y S rest (i + 1) (c + 2 * S)).1 := by
          simp [buildCols, hiy]
        have hb2 : (buildCols ρ ylat y S (sz :: rest) i c).2.1
            = (fun s => randint ρ (c + S + s) sz)
                :: (buildCols ρ ylat y S rest (i + 1) (c + 2 * S)).2.1 := by
          simp [buildCols, hiy]
        obtain ⟨hl1, hl2, hj⟩ := ih (i + 1) (c + 2 * S)
        refine ⟨by rw [hb1]; simp [hl1], by rw [hb2]; simp [hl2], ?_⟩
        intro j hj0
        cases j with
        | zero =>
            refine ⟨fun hcon => absurd (by simpa using hcon) hiy, fun _ => ?_⟩
            have hc0 : c + 2 * S * cntNe y i 0 = c := rfl
            constructor
            · rw [hb1, List.getD_cons_zero, List.getD_cons_zero, hc0]
            · rw [hb2, List.getD_cons_zero, List.getD_cons_zero, hc0]
        | succ j =>
            have hjlt : j < rest.length := by simpa using hj0
            obtain ⟨hy_eq, hy_ne⟩ := hj j hjlt
            constructor
            · intro hyy
              have hsh : (i + 1) + j = y := by omega
              obtain ⟨e1, e2⟩ := hy_eq hsh
              exact ⟨by rw [hb1, List.getD_cons_succ, e1],
                by rw [hb2, List.getD_cons_succ, e2]⟩
            · intro hyy
              have hne2 : (i + 1) + j ≠ y := by omega
              obtain ⟨e1, e2⟩ := hy_ne hne2
              have hcnt : cntNe y i (j + 1) = 1 + cntNe y (i + 1) j := by
                rw [cntNe_succ]
                simp [hiy]
              have hpos1 : c + 2 * S * cntNe y i (j + 1)
                  = (c + 2 * S) + 2 * S * cntNe y (i + 1) j := by
                rw [hcnt]
                ring
              constructor
              · rw [hb1, List.getD_cons_succ, e1, List.getD_cons_succ, hpos1]
              · rw [hb2, List.getD_cons_succ, e2, List.getD_cons_succ, hpos1]

/-- The conjunction asserted by claim C8 about one invocation of the
paired-sample generator, for a raw random stream `ρ`, an abstract
representation `μ`, factor cardinalities `sizes` and `sample_size = S`;
`y` abbreviates the factor index the invocation fixes. -/
def C8Spec (ρ : ℕ → ℕ) (μ : ℕ → ℕ → ℚ) (sizes : List ℕ) (S : ℕ) : Prop :=
  (imagesFromDataGen ρ sizes S).2.2 = randint ρ 0 sizes.length ∧
  (imagesFromDataGen ρ sizes S).2.2 < sizes.length ∧
  ((imagesFromDataGen ρ sizes S).1.getD (imagesFromDataGen ρ sizes S).2.2
      (fun _ => 0)
    = fun s =>
        randint ρ (1 + s) (sizes.getD (imagesFromDataGen ρ sizes S).2.2 0)) ∧
  ((imagesFromDataGen ρ sizes S).2.1.getD (imagesFromDataGen ρ sizes S).2.2
      (fun _ => 0)
    = fun s =>
        randint ρ (1 + s) (sizes.getD (imagesFromDataGen ρ sizes S).2.2 0)) ∧
  (∀ i, i < sizes.length → i ≠ (imagesFromDataGen ρ sizes S).2.2 →
    (imagesFromDataGen ρ sizes S).1.getD i (fun _ => 0)
      = (fun s =>
          randint ρ (startPos S (imagesFromDataGen ρ sizes S).2.2 i + s)
            (sizes.getD i 0)) ∧
    (imagesFromDataGen ρ sizes S).2.1.getD i (fun _ => 0)
      = (fun s =>
          randint ρ (startPos S (imagesFromDataGen ρ sizes S).2.2 i + S + s)
            (sizes.getD i 0))) ∧
  (∀ i j, i < sizes.length → i ≠ (imagesFromDataGen ρ sizes S).2.2 →
    j < sizes.length → j ≠ (imagesFromDataGen ρ sizes S).2.2 →
    ∀ s t, s < S → t < S →
      startPos S (imagesFromDataGen ρ sizes S).2.2 i + s
        ≠ startPos S (imagesFromDataGen ρ sizes S).2.2 j + S + t) ∧
  (∀ i, i < sizes.length → i ≠ (imagesFromDataGen ρ sizes S).2.2 →
    ∀ s t, s < S → t < S →
      1 + s ≠ startPos S (imagesFromDataGen ρ sizes S).2.2 i + t ∧
      1 + s ≠ startPos S (imagesFromDataGen ρ sizes S).2.2 i + S + t) ∧
  (computeZbDiffY ρ μ sizes S).2 = (imagesFromDataGen ρ sizes S).2.2 ∧
  (computeZbDiffY ρ μ sizes S).1
    = fun d =>
        (∑ s ∈ Finset.range S,
          |μ (encodeIdx sizes (rowOf (imagesFromDataGen ρ sizes S).1 s)) d
            - μ (encodeIdx sizes (rowOf (imagesFromDataGen ρ sizes S).2.1 s)) d|)
          / (S : ℚ)

/-- C8: in one invocation of the paired-sample generator, exactly one factor
index is drawn (a single uniform draw over the factor indices), the
`sample_size` values of that factor are shared entry-for-entry between the
two generated sample sets, every other factor's columns for set 1 and set 2
are fresh draws read from pairwise disjoint stream positions (no sharing,
also none with the shared column's draws), and the emitted record is the
per-dimension mean absolute difference of the two representation outputs,
labeled with the drawn factor index. -/
theorem C8_paired_sample_generator (ρ : ℕ → ℕ) (μ : ℕ → ℕ → ℚ)
    (sizes : List ℕ) (S : ℕ) (hne : 0 < sizes.length) :
    C8Spec ρ μ sizes S := by
  have hy_def : (imagesFromDataGen ρ sizes S).2.2 = randint ρ 0 sizes.length :=
    rfl
  set y := (imagesFromDataGen ρ sizes S).2.2 with hy
  have hylt : y < sizes.length := by
    rw [hy_def, randint]
    exact Nat.mod_lt _ hne
  have hcols1 : (imagesFromDataGen ρ sizes S).1
      = (buildCols ρ (fun s => randint ρ (1 + s) (sizes.getD y 0)) y S
          sizes 0 (1 + S)).1 := rfl
  have hcols2 : (imagesFromDataGen ρ sizes S).2.1
      = (buildCols ρ (fun s => randint ρ (1 + s) (sizes.getD y 0)) y S
          sizes 0 (1 + S)).2.1 := rfl
  obtain ⟨hl1, hl2, hj⟩ :=
    buildCols_spec ρ (fun s => randint ρ (1 + s) (sizes.getD y 0)) y S
      sizes 0 (1 + S)
  have hshared := (hj y hylt).1 (Nat.zero_add y)
  have hother : ∀ i, i < sizes.length → i ≠ y →
      (imagesFromDataGen ρ sizes S).1.getD i (fun _ => 0)
        = (fun s => randint ρ (startPos S y i + s) (sizes.getD i 0)) ∧
      (imagesFromDataGen ρ sizes S).2.1.getD i (fun _ => 0)
        = (fun s => randint ρ (startPos S y i + S + s) (sizes.getD i 0)) := by
    intro i hilt hiy
    have hne0 : 0 + i ≠ y := by omega
    obtain ⟨e1, e2⟩ := (hj i hilt).2 hne0
    have hsp : 1 + S + 2 * S * cntNe y 0 i = startPos S y i := by
      rw [cntNe_zero_left, startPos]
    constructor
    · rw [hcols1, e1]
      simp only [hsp]
    · rw [hcols2, e2]
      simp only [hsp]
  have hdisj : ∀ i j, i < sizes.length → i ≠ y → j < sizes.length → j ≠ y →
      ∀ s t, s < S → t < S →
        startPos S y i + s ≠ startPos S y j + S + t := by
    intro i j _ hiy _ hjy s t hs ht
    rcases Nat.lt_trichotomy i j with hij | hij | hij
    · have hcnt := nonYCount_strict hij hiy
      have : startPos S y i + 2 * S ≤ startPos S y j := by
        rw [startPos, startPos]
        have : 2 * S * (nonYCount y i + 1) ≤ 2 * S * nonYCount y j :=
          Nat.mul_le_mul_left _ hcnt
        rw [Nat.mul_add, Nat.mul_one] at this
        omega
      omega
    · subst hij
      omega
    · have hcnt := nonYCount_strict hij hjy
      have : startPos S y j + 2 * S ≤ startPos S y i := by
        rw [startPos, startPos]
        have : 2 * S * (nonYCount y j + 1) ≤ 2 * S * nonYCount y i :=
          Nat.mul_le_mul_left _ hcnt
        rw [Nat.mul_add, Nat.mul_one] at this
        omega
      omega
  have hbefore : ∀ i, i < sizes.length → i ≠ y →
      ∀ s t, s < S → t < S →
        1 + s ≠ startPos S y i + t ∧ 1 + s ≠ startPos S y i + S + t := by
    intro i _ _ s t hs ht
    have : 1 + S ≤ startPos S y i := by
      rw [startPos]
      omega
    omega
  exact ⟨hy_def, hylt, hshared.1, hshared.2, hother, hdisj, hbefore, rfl, rfl⟩

/-- Witness for C8 at the identity stream, a constant representation,
cardinalities `[2, 3]` and `sample_size = 5`. -/
theorem C8_paired_sample_generator_witness :
    0 < ([2, 3] : List ℕ).length ∧
      C8Spec (fun p => p) (fun _ _ => 0) [2, 3] 5 :=
  ⟨by decide, C8_paired_sample_generator (fun p => p) (fun _ _ => 0) [2, 3] 5
    (by decide)⟩

/-! ### Pivot selection in `_estimate_latent_entropies` (lines 466-478) -/

/-- `torch.Tensor.view`: reinterpret a flat buffer with a new 2-D shape,
row-major; raises unless the element count matches the requested shape
exactly. -/
def torchView {α : Type} (flat : List α) (r c : ℕ) :
    Except String (List (List α)) :=
  if flat.length = r * c then
    .ok ((List.range r).map (fun i => (flat.drop (i * c)).take c))
  else
    .error "view: shape invalid for input size"

/-- The pivot-selection prefix of `_estimate_latent_entropies`
(lines 471-473) on a samples table of `N` rows and `latent_dim` columns:
`samples_x = torch.randperm(len_dataset)[:n_samples]` (the slice clamps to
the `N` available rows; `perm` is the permutation drawn),
`index_select(0, samples_x)` gathers the selected rows, and
`.view(latent_dim, n_samples)` reinterprets the gathered buffer as exactly
`latent_dim * n_samples` elements. -/
def selectPivots (samples : List (List ℚ)) (latent_dim n_samples : ℕ)
    (perm : List ℕ) : Except String (List (List ℚ)) :=
  let samples_x := perm.take n_samples
  let selected := samples_x.map (fun i => samples.getD i [])
  torchView selected.flatten latent_dim n_samples

/-- C2 is a code bug: with `N = 4` posterior rows (the size of a
factor-conditioned subset of a dense `[4, 6]` dataset for the cardinality-6
factor), `latent_dim = 2` and the default `n_samples = 10000`, the
`randperm` slice does clamp to the 4 available pivots, but the subsequent
`.view(latent_dim, n_samples)` still demands `2 * 10000` elements and
raises instead of clamping. -/
theorem C2_pivot_clamp_fails :
    (([0, 1, 2, 3] : List ℕ).take 10000).length = 4 ∧
    selectPivots [[0, 0], [0, 0], [0, 0], [0, 0]] 2 10000 [0, 1, 2, 3]
      = .error "view: shape invalid for input size" :=
  ⟨rfl, rfl⟩

/-! ### `compute_metrics` (lines 128-182) -/

/-- In the source, the assignment of `non_linear_accuracies` (line 150) is
commented out, so the Python name is unbound when line 179 builds the
metrics record; an unbound local is modelled as `none`. -/
def non_linear_accuracies : Option Unit := none

/-- The control flow of `compute_metrics` (lines 128-182), with the numeric
subcomputations (classifier accuracies, entropies, MIG, AAM) abstracted as
already-computed values: the guard on the dataset factor metadata
(lines 140-145), the metrics record built at line 179 — which reads the
name `non_linear_accuracies` — and the `torch.save` of the metric-helpers
artifact (line 180), which runs only after line 179.  A normal return
carries the metrics record paired with the persisted artifact. -/
def compute_metrics {α β γ : Type} (hasFactorMetadata : Bool)
    (accuracies : α) (mig aam : β) (metric_helpers : γ) :
    Except String ((α × Unit × β × β) × γ) :=
  if hasFactorMetadata then
    match non_linear_accuracies with
    | some nl => .ok ((accuracies, nl, mig, aam), metric_helpers)
    | none => .error "NameError: name non_linear_accuracies is not defined"
  else
    .error "ValueError: Dataset needs to have known true factors of variations to compute the metric"

/-- C1 is a code bug: for every dataloader that does expose the factor
metadata, `compute_metrics` raises a `NameError` when line 179 reads
`non_linear_accuracies` (whose assignment at line 150 is commented out),
so it neither returns a metrics record nor reaches the `torch.save` that
persists the metric-helpers artifact. -/
theorem C1_compute_metrics_name_error {α β γ : Type}
    (accuracies : α) (mig aam : β) (metric_helpers : γ) :
    compute_metrics true accuracies mig aam metric_helpers
      = .error "NameError: name non_linear_accuracies is not defined" :=
  rfl

/-! ### Baseline trainer loop of `_disentanglement_metric` (lines 186-221) -/

/-- One trained baseline representation: PCA records the subsample size and
the population bound its subsample indices are drawn from, ICA records the
component count, the subsample size, and the population bound of its
subsample indices (`np.random.randint(len(imgs_pca), size=1000)`,
line 214). -/
inductive Fit where
  | vae : Fit
  | pca (sampleSize indexBound : ℕ) : Fit
  | ica (nComponents sampleSize indexBound : ℕ) : Fit
deriving DecidableEq

/-- The method-training loop of `_disentanglement_metric` (lines 190-221)
over the requested method names, for a dataset of `n` images and latent
dimensionality `latent_dim`.  The `Option ℕ` state is the length of the
Python local `imgs_pca`: unbound (`none`) until the PCA branch reassigns it
to its 5000-row subsample (lines 197-202).  The ICA branch (lines 207-218)
draws its 1000 subsample indices bounded by `len(imgs_pca)` — an unbound
name if PCA has not trained before it. -/
def trainMethods (latent_dim n : ℕ) :
    List String → Option ℕ → Except String (List Fit × Option ℕ)
  | [], imgsPcaLen => .ok ([], imgsPcaLen)
  | name :: rest, imgsPcaLen =>
      if name = "VAE" then
        (trainMethods latent_dim n rest imgsPcaLen).map
          (fun r => (Fit.vae :: r.1, r.2))
      else if name = "PCA" then
        (trainMethods latent_dim n rest (some 5000)).map
          (fun r => (Fit.pca 5000 n :: r.1, r.2))
      else if name = "ICA" then
        match imgsPcaLen with
        | none => .error "NameError: name imgs_pca is not defined"
        | some m =>
            (trainMethods latent_dim n rest (some m)).map
              (fun r => (Fit.ica latent_dim 1000 m :: r.1, r.2))
      else
        .error ("Unknown method : " ++ name)

/-- C9 is a code bug: requesting ICA without PCA crashes on the unbound name
`imgs_pca` (line 214), and even when PCA trains first (the dsprites-sized
run with 737280 images) the ICA subsample indices are bounded by 5000 — the
length of the PCA subsample — so the subsample is not drawn from the full
set of flattened dataset images. -/
theorem C9_ica_subsample_bug :
    trainMethods 10 737280 ["VAE", "ICA"] none
      = .error "NameError: name imgs_pca is not defined" ∧
    trainMethods 10 737280 ["VAE", "PCA", "ICA"] none
      = .ok ([Fit.vae, Fit.pca 5000 737280, Fit.ica 10 1000 5000], some 5000) ∧
    (5000 : ℕ) ≠ 737280 :=
  ⟨rfl, rfl, by decide⟩

/-! ### `Evaluator.__call__` (lines 69-104) -/

/-- `Evaluator.__call__` as a transformer of the model's training-mode flag:
record `is_still_training` (line 83), switch to evaluation mode (line 84),
run the metric and then the loss computation when requested (lines 87-97;
either may raise, modelled by the two raise flags, and the mode each one
observes is recorded), then restore training mode only when it was set on
entry (lines 99-100).  A normal return carries the observed modes and the
final flag. -/
def evaluatorCall (wasTraining is_metrics is_losses metricsRaises
    lossesRaises : Bool) : Except String (Option Bool × Option Bool × Bool) :=
  let is_still_training := wasTraining
  let mode1 := false
  if is_metrics && metricsRaises then
    .error "compute_metrics raised"
  else
    let mM := if is_metrics then some mode1 else none
    if is_losses && lossesRaises then
      .error "compute_losses raised"
    else
      let mL := if is_losses then some mode1 else none
      let finalMode := if is_still_training then true else mode1
      .ok (mM, mL, finalMode)

/-- C10: whenever `Evaluator.__call__` returns normally, the model's
training-mode flag is restored to its entry value (training stays training,
evaluation stays evaluation), while the metric and loss computations both
ran with the model in evaluation mode. -/
theorem C10_mode_restored (wasTraining is_metrics is_losses mr lr : Bool)
    (res : Option Bool × Option Bool × Bool)
    (h : evaluatorCall wasTraining is_metrics is_losses mr lr = .ok res) :
    res.2.2 = wasTraining ∧
    res.1 = (if is_metrics then some false else none) ∧
    res.2.1 = (if is_losses then some false else none) := by
  unfold evaluatorCall at h
  cases wasTraining <;> cases is_metrics <;> cases is_losses <;>
    cases mr <;> cases lr <;> simp_all <;> subst h <;> simp

/-- Witness for C10: a call entered in training mode with both computations
requested and succeeding. -/
theorem C10_mode_restored_witness :
    ((some false, some false, true) : Option Bool × Option Bool × Bool).2.2
        = true ∧
      ((some false, some false, true) : Option Bool × Option Bool × Bool).1
        = (if true then some false else none) ∧
      ((some false, some false, true) : Option Bool × Option Bool × Bool).2.1
        = (if true then some false else none) :=
  C10_mode_restored true true true false false (some false, some false, true)
    rfl

end DisVAE
